import Mathlib

/-!
# Verification of the ajson JSONPath tokenizer and evaluator

Shallow embedding of `src/jsonpath.go` (package `ajson`): the `ParseJSONPath`
tokenizer, the `JSONPath` evaluation fold, and the `recursiveChildren`
descendant traversal.  The node tree, the byte-cursor (`buffer`) primitives and
the error constructors live outside the provided source; they are modelled from
the specification's node-tree contract (§3, §6) and cursor description (§4.1, §9).

Machine integers (`int` on a 64-bit platform) are modelled as `Int` with
explicit wrapping mod 2^64 where the Go code can overflow.  The Go slice loop
can fail to terminate (`step = 0`); it is therefore given an explicit fuel
parameter, with `none` meaning "still running after `fuel` iterations", so
that divergence is expressible as "`none` for every fuel".
-/

/-- Errors of the library.  `eof`/`symbol` model the tokenizer's
`errorEOF`/`errorSymbol`; `request` models `errorRequest()` from slice
validation; `ioEOF` models a raw `io.EOF` escaping from `ParseJSONPath`
(empty input); `document` stands for an error of the external document
parser (`Unmarshal`). Modelled from the spec: the error constructors are not
part of `src/jsonpath.go`. -/
inductive AjsonError where
  | ioEOF
  | eof
  | symbol
  | request
  | document
  deriving DecidableEq

/-! Modelled from the spec: a JSON node (§3).  A container is an object
(children under string keys, in key-insertion order) or an array (children
under the stringified, zero-based, contiguous integer indices).  Object
fields and array items are their own inductive types (isomorphic to lists)
so that tree traversals can be defined by structural recursion. -/

mutual
inductive Node where
  | null
  | bool (b : Bool)
  | num (n : Int)
  | str (s : String)
  | object (fields : Fields)
  | array (items : Items)
inductive Fields where
  | nil
  | cons (key : String) (val : Node) (rest : Fields)
inductive Items where
  | nil
  | cons (val : Node) (rest : Items)
end

/-- Build object fields from an association list (convenience constructor). -/
def Fields.ofList : List (String × Node) → Fields
  | [] => .nil
  | (k, v) :: rest => .cons k v (Fields.ofList rest)

/-- The values of the fields, in key-insertion order. -/
def Fields.vals : Fields → List Node
  | .nil => []
  | .cons _ v rest => v :: rest.vals

/-- The fields as an association list. -/
def Fields.pairs : Fields → List (String × Node)
  | .nil => []
  | .cons k v rest => (k, v) :: rest.pairs

/-- Build array items from a list (convenience constructor). -/
def Items.ofList : List Node → Items
  | [] => .nil
  | v :: rest => .cons v (Items.ofList rest)

/-- The items, in ascending index order. -/
def Items.toList : Items → List Node
  | .nil => []
  | .cons v rest => v :: rest.toList

/-- Object node from an association list. -/
def Node.obj (l : List (String × Node)) : Node := .object (Fields.ofList l)

/-- Array node from a list. -/
def Node.arr (l : List Node) : Node := .array (Items.ofList l)

namespace Node

/-- Modelled from the spec: `isContainer()` — object or array (§6). -/
def isContainer : Node → Bool
  | object _ => true
  | array _ => true
  | _ => false

/-- Modelled from the spec: `IsArray()` — array kind check (§6). -/
def IsArray : Node → Bool
  | array _ => true
  | _ => false

/-- Modelled from the spec: the `children` map of a node — object children
under their keys, array children under stringified indices "0","1",…  (§3). -/
def childPairs : Node → List (String × Node)
  | object fs => fs.pairs
  | array xs => (xs.toList.enum).map (fun p => (toString p.1, p.2))
  | _ => []

/-- Modelled from the spec: `children[key]` lookup (§6 `childByKey`). -/
def childByKey (n : Node) (key : String) : Option Node :=
  List.lookup key n.childPairs

/-- Modelled from the spec: `inheritors()` — direct children in natural order:
key-insertion order for objects, ascending index for arrays (§6). -/
def inheritors : Node → List Node
  | object fs => fs.vals
  | array xs => xs.toList
  | _ => []

end Node

/-! ## Models of the Go standard-library string functions used by the source -/

/-- `strings.Split` with a single-character separator, on char lists:
splits around every occurrence of `sep`, keeping empty fields. -/
def splitCharList (sep : Char) : List Char → List (List Char)
  | [] => [[]]
  | c :: rest =>
    if c = sep then [] :: splitCharList sep rest
    else
      match splitCharList sep rest with
      | h :: t => (c :: h) :: t
      | [] => [[c]]

/-- `strings.Split(s, sep)` for a one-character separator. -/
def goSplit (s : String) (sep : Char) : List String :=
  (splitCharList sep s.toList).map List.asString

/-- `strings.Contains(s, c)` for a one-character substring. -/
def goContains (s : String) (c : Char) : Bool :=
  s.toList.contains c

/-- `strings.HasPrefix(cmd, "?(")` — recognition of a filter command. -/
def isFilterCmd (s : String) : Bool :=
  match s.toList with
  | '?' :: '(' :: _ => true
  | _ => false

/-- Decimal value of a digit character, if it is one. -/
def digitVal? (c : Char) : Option Nat :=
  if '0' ≤ c ∧ c ≤ '9' then some (c.toNat - '0'.toNat) else none

/-- Accumulate decimal digits; fails on any non-digit. -/
def digitsAux : Nat → List Char → Option Nat
  | acc, [] => some acc
  | acc, c :: r =>
    match digitVal? c with
    | some d => digitsAux (acc * 10 + d) r
    | none => none

/-- `math.MaxInt64`, the sentinel the source uses for an unbounded slice `to`. -/
def maxInt64 : Int := 2 ^ 63 - 1

/-- `strconv.Atoi` on a 64-bit platform: optional sign, one or more decimal
digits, result within `[-2^63, 2^63)`; anything else is an error (`none`). -/
def goAtoi (s : String) : Option Int :=
  let signed : Option (Bool × List Char) :=
    match s.toList with
    | [] => none
    | '+' :: r => if r = [] then none else some (false, r)
    | '-' :: r => if r = [] then none else some (true, r)
    | l => some (false, l)
  match signed with
  | none => none
  | some (neg, l) =>
    match digitsAux 0 l with
    | none => none
    | some n =>
      if neg then (if n ≤ 2 ^ 63 then some (-(n : Int)) else none)
      else (if n ≤ 2 ^ 63 - 1 then some ((n : Int)) else none)

/-- Wrap an integer into the signed 64-bit range, as Go's `int` addition does. -/
def wrap64 (z : Int) : Int := (z + 2 ^ 63) % 2 ^ 64 - 2 ^ 63

/-! ## `recursiveChildren` (src/jsonpath.go, lines 135–149) -/

/-- The `result` list built by the first loop of `recursiveChildren`: the
direct children that are themselves containers, guarded by the node itself
being a container. -/
def containerChildren (node : Node) : List Node :=
  if node.isContainer then node.inheritors.filter (fun e => e.isContainer) else []

/-! `recursiveChildren` from src/jsonpath.go: the direct container children,
followed by — for each of those children in order — that child's own
recursive result (`temp` in the source).  `rcFields`/`rcItems` realize the
second loop (`for _, element := range result { temp = append(temp,
recursiveChildren(element)...) }`) by structural recursion;
`recursiveChildren_eq` below recovers the Go recurrence literally. -/

mutual
def recursiveChildren (node : Node) : List Node :=
  containerChildren node ++
    (match node with
     | .object fs => rcFields fs
     | .array xs => rcItems xs
     | _ => [])
def rcFields : Fields → List Node
  | .nil => []
  | .cons _ v rest => (if v.isContainer then recursiveChildren v else []) ++ rcFields rest
def rcItems : Items → List Node
  | .nil => []
  | .cons v rest => (if v.isContainer then recursiveChildren v else []) ++ rcItems rest
end

theorem rcFields_eq :
    ∀ fs : Fields,
      rcFields fs = (fs.vals.filter (fun e => e.isContainer)).flatMap recursiveChildren
  | .nil => by simp [rcFields, Fields.vals]
  | .cons k v rest => by
    simp only [rcFields, Fields.vals, List.filter_cons]
    by_cases h : v.isContainer = true
    · simp [h, rcFields_eq rest]
    · simp only [Bool.not_eq_true] at h
      simp [h, rcFields_eq rest]

theorem rcItems_eq :
    ∀ xs : Items,
      rcItems xs = (xs.toList.filter (fun e => e.isContainer)).flatMap recursiveChildren
  | .nil => by simp [rcItems, Items.toList]
  | .cons v rest => by
    simp only [rcItems, Items.toList, List.filter_cons]
    by_cases h : v.isContainer = true
    · simp [h, rcItems_eq rest]
    · simp only [Bool.not_eq_true] at h
      simp [h, rcItems_eq rest]

/-- The Go recurrence of `recursiveChildren`: the container children followed
by each container child's own full descendant list, in order. -/
theorem recursiveChildren_eq (n : Node) :
    recursiveChildren n =
      containerChildren n ++ (containerChildren n).flatMap recursiveChildren := by
  cases n with
  | object fs =>
    show containerChildren (.object fs) ++ rcFields fs = _
    rw [rcFields_eq,
      show containerChildren (.object fs) = fs.vals.filter (fun e => e.isContainer) from rfl]
  | array xs =>
    show containerChildren (.array xs) ++ rcItems xs = _
    rw [rcItems_eq,
      show containerChildren (.array xs) = xs.toList.filter (fun e => e.isContainer) from rfl]
  | null => rfl
  | bool b => rfl
  | num m => rfl
  | str s => rfl

/-! Structural size of a node, used as the measure for induction over the
tree (the descendant traversal recurses on children, not on subterms of the
node's top constructor). -/

mutual
def nodeSize : Node → Nat
  | .object fs => 1 + fieldsSize fs
  | .array xs => 1 + itemsSize xs
  | _ => 1
def fieldsSize : Fields → Nat
  | .nil => 0
  | .cons _ v rest => 1 + nodeSize v + fieldsSize rest
def itemsSize : Items → Nat
  | .nil => 0
  | .cons v rest => 1 + nodeSize v + itemsSize rest
end

theorem nodeSize_pos (n : Node) : 0 < nodeSize n := by
  cases n <;> simp [nodeSize]

theorem nodeSize_le_fieldsSize :
    ∀ (fs : Fields) (v : Node), v ∈ fs.vals → nodeSize v ≤ fieldsSize fs
  | .nil, v => by intro hv; simp [Fields.vals] at hv
  | .cons k w rest, v => by
    intro hv
    rcases List.mem_cons.mp hv with rfl | hv
    · simp [fieldsSize]; omega
    · have := nodeSize_le_fieldsSize rest v hv
      simp [fieldsSize]; omega

theorem nodeSize_le_itemsSize :
    ∀ (xs : Items) (v : Node), v ∈ xs.toList → nodeSize v ≤ itemsSize xs
  | .nil, v => by intro hv; simp [Items.toList] at hv
  | .cons w rest, v => by
    intro hv
    rcases List.mem_cons.mp hv with rfl | hv
    · simp [itemsSize]; omega
    · have := nodeSize_le_itemsSize rest v hv
      simp [itemsSize]; omega

theorem nodeSize_lt_of_mem_inheritors {v n : Node} (h : v ∈ n.inheritors) :
    nodeSize v < nodeSize n := by
  cases n with
  | object fs =>
    have := nodeSize_le_fieldsSize fs v h
    simp [nodeSize]; omega
  | array xs =>
    have := nodeSize_le_itemsSize xs v h
    simp [nodeSize]; omega
  | null => simp [Node.inheritors] at h
  | bool b => simp [Node.inheritors] at h
  | num m => simp [Node.inheritors] at h
  | str s => simp [Node.inheritors] at h

theorem mem_containerChildren {x n : Node} (h : x ∈ containerChildren n) :
    x ∈ n.inheritors ∧ x.isContainer = true := by
  unfold containerChildren at h
  split at h
  · exact ⟨List.mem_of_mem_filter h, (List.mem_filter.mp h).2⟩
  · simp at h

theorem mem_rcFields :
    ∀ (fs : Fields) (x : Node), x ∈ rcFields fs →
      ∃ v, v ∈ fs.vals ∧ v.isContainer = true ∧ x ∈ recursiveChildren v
  | .nil, x => by intro h; simp [rcFields] at h
  | .cons k v rest, x => by
    intro h
    simp only [rcFields, List.mem_append] at h
    rcases h with h | h
    · by_cases hc : v.isContainer = true
      · rw [if_pos hc] at h
        exact ⟨v, List.mem_cons_self v _, hc, h⟩
      · rw [if_neg hc] at h; simp at h
    · obtain ⟨w, hw, hc, hx⟩ := mem_rcFields rest x h
      exact ⟨w, List.mem_cons_of_mem _ hw, hc, hx⟩

theorem mem_rcItems :
    ∀ (xs : Items) (x : Node), x ∈ rcItems xs →
      ∃ v, v ∈ xs.toList ∧ v.isContainer = true ∧ x ∈ recursiveChildren v
  | .nil, x => by intro h; simp [rcItems] at h
  | .cons v rest, x => by
    intro h
    simp only [rcItems, List.mem_append] at h
    rcases h with h | h
    · by_cases hc : v.isContainer = true
      · rw [if_pos hc] at h
        exact ⟨v, List.mem_cons_self v _, hc, h⟩
      · rw [if_neg hc] at h; simp at h
    · obtain ⟨w, hw, hc, hx⟩ := mem_rcItems rest x h
      exact ⟨w, List.mem_cons_of_mem _ hw, hc, hx⟩

theorem rc_containers_aux :
    ∀ (k : Nat) (n x : Node), nodeSize n ≤ k → x ∈ recursiveChildren n →
      x.isContainer = true := by
  intro k
  induction k with
  | zero =>
    intro n x h _
    have := nodeSize_pos n; omega
  | succ k ih =>
    intro n x hk hx
    rw [recursiveChildren_eq, List.mem_append] at hx
    rcases hx with hx | hx
    · exact (mem_containerChildren hx).2
    · rw [List.mem_flatMap] at hx
      obtain ⟨c, hc, hxc⟩ := hx
      have hmem := (mem_containerChildren hc).1
      have hlt := nodeSize_lt_of_mem_inheritors hmem
      exact ih c x (by omega) hxc

/-- Leaf (non-container) nodes never occur in `recursiveChildren`. -/
theorem rc_containers {n x : Node} (h : x ∈ recursiveChildren n) :
    x.isContainer = true :=
  rc_containers_aux (nodeSize n) n x le_rfl h

/-! A second definition that follows claim C1's words, not the source: a
pre-order restricted to container nodes, in which each direct container
child appears immediately followed by that child's own full
descendant-container list, before the next sibling container. -/

mutual
def claimPreorder : Node → List Node
  | .object fs => cpFields fs
  | .array xs => cpItems xs
  | _ => []
def cpFields : Fields → List Node
  | .nil => []
  | .cons _ v rest => (if v.isContainer then v :: claimPreorder v else []) ++ cpFields rest
def cpItems : Items → List Node
  | .nil => []
  | .cons v rest => (if v.isContainer then v :: claimPreorder v else []) ++ cpItems rest
end

theorem cpFields_eq :
    ∀ fs : Fields,
      cpFields fs =
        (fs.vals.filter (fun e => e.isContainer)).flatMap (fun c => c :: claimPreorder c)
  | .nil => by simp [cpFields, Fields.vals]
  | .cons k v rest => by
    simp only [cpFields, Fields.vals, List.filter_cons]
    by_cases h : v.isContainer = true
    · simp [h, cpFields_eq rest]
    · simp only [Bool.not_eq_true] at h
      simp [h, cpFields_eq rest]

theorem cpItems_eq :
    ∀ xs : Items,
      cpItems xs =
        (xs.toList.filter (fun e => e.isContainer)).flatMap (fun c => c :: claimPreorder c)
  | .nil => by simp [cpItems, Items.toList]
  | .cons v rest => by
    simp only [cpItems, Items.toList, List.filter_cons]
    by_cases h : v.isContainer = true
    · simp [h, cpItems_eq rest]
    · simp only [Bool.not_eq_true] at h
      simp [h, cpItems_eq rest]

/-- The recurrence of the claim's pre-order reading: each direct container
child immediately followed by its own descendant list. -/
theorem claimPreorder_eq (n : Node) :
    claimPreorder n = (containerChildren n).flatMap (fun c => c :: claimPreorder c) := by
  cases n with
  | object fs =>
    show cpFields fs = _
    rw [cpFields_eq,
      show containerChildren (.object fs) = fs.vals.filter (fun e => e.isContainer) from rfl]
  | array xs =>
    show cpItems xs = _
    rw [cpItems_eq,
      show containerChildren (.array xs) = xs.toList.filter (fun e => e.isContainer) from rfl]
  | null => rfl
  | bool b => rfl
  | num m => rfl
  | str s => rfl

/-! ## The evaluation fold of `JSONPath` (src/jsonpath.go, lines 33–123) -/

/-- Validation and defaulting of the slice fields (src lines 59–87), after
`cmd` has been split on `:` into `k0 :: k1 :: rest`: empty `from` defaults
to 0, empty `to` to `math.MaxInt64`, missing or empty `step` to 1; a present
field that fails `strconv.Atoi` is `errorRequest()`. -/
def parseSliceFields (k0 k1 : String) (rest : List String) :
    Except AjsonError (Int × Int × Int) :=
  match (if k0 = "" then some 0 else goAtoi k0) with
  | none => .error .request
  | some fromI =>
    match (if k1 = "" then some maxInt64 else goAtoi k1) with
    | none => .error .request
    | some toI =>
      match rest with
      | [] => .ok (fromI, toI, 1)
      | k2 :: _ =>
        if k2 = "" then .ok (fromI, toI, 1)
        else
          match goAtoi k2 with
          | none => .error .request
          | some stepI => .ok (fromI, toI, stepI)

/-- Slice-command validation (src lines 59–87): split on `:`, reject more
than three fields, then default/parse each field.  The fallback branch is
unreachable in context: the slice case is only entered when `cmd` contains
`:`, so the split has at least two fields. -/
def parseSliceRaw (cmd : String) : Except AjsonError (Int × Int × Int) :=
  match goSplit cmd ':' with
  | k0 :: k1 :: rest =>
    if rest.length > 1 then .error .request
    else parseSliceFields k0 k1 rest
  | _ => .error .request

/-- The inner slice loop for one array node (src lines 92–99):
`for i := from; i < to; i += step`, looking up `strconv.Itoa(i)` in the
node's children, appending on a hit and breaking on the first miss.  `fuel`
bounds the number of iterations; `none` means the loop is still running
after `fuel` iterations (with `step = 0` the Go loop never terminates). -/
def sliceIter (node : Node) (toI stepI : Int) : Nat → Int → List Node → Option (List Node)
  | 0, _, _ => none
  | fuel + 1, i, acc =>
    if i < toI then
      match node.childByKey (toString i) with
      | some v => sliceIter node toI stepI fuel (wrap64 (i + stepI)) (acc ++ [v])
      | none => some acc
    else some acc

/-- The outer slice loop (src lines 90–101): each array node of the current
result contributes its found children in order; non-array nodes contribute
nothing. -/
def sliceAll (fuel : Nat) (fromI toI stepI : Int) : List Node → Option (List Node)
  | [] => some []
  | e :: rest =>
    if e.IsArray then
      match sliceIter e toI stepI fuel fromI [] with
      | none => none
      | some found =>
        match sliceAll fuel fromI toI stepI rest with
        | none => none
        | some tail => some (found ++ tail)
    else sliceAll fuel fromI toI stepI rest

/-- One step of the evaluation fold (the `switch` of src lines 41–121):
dispatch on the shape of `cmd`, transforming the working `result`.  `idx` is
the position of the command in the sequence (the root command appends the
root only at position 0).  `none` propagates a non-terminating slice loop. -/
def applyCmd (fuel : Nat) (root : Node) (idx : Nat) (result : List Node) (cmd : String) :
    Option (Except AjsonError (List Node)) :=
  if cmd = "$" then
    some (.ok (if idx = 0 then result ++ [root] else result))
  else if cmd = ".." then
    some (.ok (result ++ result.flatMap recursiveChildren))
  else if cmd = "*" then
    some (.ok (result.flatMap Node.inheritors))
  else if goContains cmd ':' then
    match parseSliceRaw cmd with
    | .error e => some (.error e)
    | .ok (fromI, toI, stepI) =>
      match sliceAll fuel fromI toI stepI result with
      | none => none
      | some temp => some (.ok temp)
  else if isFilterCmd cmd then
    some (.ok result)
  else
    some (.ok ((goSplit cmd ',').flatMap (fun key =>
      result.filterMap (fun e =>
        if e.isContainer then e.childByKey key else none))))

/-- The left fold of the command sequence over the working result
(src lines 40–122), starting from the empty result.  An error aborts the
fold immediately (the Go function returns `nil, err`, discarding the
partial result). -/
def runCommands (fuel : Nat) (root : Node) :
    Nat → List Node → List String → Option (Except AjsonError (List Node))
  | _, result, [] => some (.ok result)
  | idx, result, cmd :: rest =>
    match applyCmd fuel root idx result cmd with
    | none => none
    | some (.error e) => some (.error e)
    | some (.ok result') => runCommands fuel root (idx + 1) result' rest

/-! ## The tokenizer `ParseJSONPath` (src/jsonpath.go, lines 152–237)

The `buffer` type and its cursor primitives (`current`, `next`, `step`,
`skipAny`, `skip`, `string`) are not part of src/jsonpath.go; they are
modelled from the spec's cursor description (§4.1, §9: peek / advance /
scan-until-delimiter over the path's bytes).  The primitives signal `io.EOF`
as a `Bool`/`Option`; the path is ASCII (§6), so bytes are modelled as
characters. -/

/-- Modelled from the spec: the cursor — the path's characters plus the
current index. -/
structure Buffer where
  data : List Char
  index : Nat

namespace Buffer

/-- The input length. -/
def length (b : Buffer) : Nat := b.data.length

/-- Modelled from the spec: peek at the current character; `none` is `io.EOF`. -/
def current (b : Buffer) : Option Char := b.data.get? b.index

/-- Modelled from the spec: advance one position; `none` is `io.EOF` (the
index is not moved past the last character). -/
def step (b : Buffer) : Option Buffer :=
  if b.index + 1 < b.length then some { b with index := b.index + 1 } else none

/-- Modelled from the spec: advance then peek. -/
def next (b : Buffer) : Option (Char × Buffer) :=
  match b.step with
  | none => none
  | some b' =>
    match b'.current with
    | none => none
    | some c => some (c, b')

/-- First index at or after the counter `i` whose character satisfies `p`,
scanning the given suffix of the data. -/
def scanIdx (p : Char → Bool) : List Char → Nat → Option Nat
  | [], _ => none
  | c :: rest, i => if p c then some i else scanIdx p rest (i + 1)

/-- Modelled from the spec: scan forward (including the current position)
until a character satisfying `p`; on `io.EOF` (the `Bool` is `true`) the
index is left at the end of the input. -/
def skipAny (b : Buffer) (p : Char → Bool) : Buffer × Bool :=
  match scanIdx p (b.data.drop b.index) b.index with
  | some j => ({ b with index := j }, false)
  | none => ({ b with index := b.length }, true)

/-- Modelled from the spec: scan forward until the character `c`. -/
def skip (b : Buffer) (c : Char) : Buffer × Bool :=
  b.skipAny (fun x => x == c)

/-- Modelled from the spec: the `buffer.string` primitive — scan forward
from the position after the current one (the opening quote) until the
closing `search` character. -/
def stringScan (b : Buffer) (search : Char) : Buffer × Bool :=
  match scanIdx (fun x => x == search) (b.data.drop (b.index + 1)) (b.index + 1) with
  | some j => ({ b with index := j }, false)
  | none => ({ b with index := b.length }, true)

end Buffer

/-- Modelled from the spec: the `quote` constant used for quoted bracket
keys.  The spec's examples (§8: `$['a']['b']` tokenizes to `$, a, b`) use
single-quoted keys, so the constant is the single quote. -/
def quoteChar : Char := '\''

/-- `string(buf.data[a:b])` — the substring between two byte indices. -/
def charSub (data : List Char) (a b : Nat) : String :=
  ((data.drop a).take (b - a)).asString

/-- The delimiters ending a dot-child name: `childEnd = {'.': true, '[': true}`. -/
def childEndPred (c : Char) : Bool := c == '.' || c == '['

/-- The `for` loop of `ParseJSONPath` (src lines 160–235), one fuel unit per
iteration.  Every iteration either returns or advances the cursor, so
`length + 1` fuel (as supplied by `ParseJSONPath`) is never exhausted; the
fuel-out branch returns the `io.EOF` error for totality. -/
def parseLoop : Nat → Buffer → List String → Except AjsonError (List String)
  | 0, _, _ => .error .ioEOF
  | fuel + 1, buf, result =>
    -- the trailing `buf.step()` of the loop body: `io.EOF` ends the parse
    -- successfully, any other outcome continues the loop.
    let cont : Buffer → List String → Except AjsonError (List String) :=
      fun bufN resN =>
        match bufN.step with
        | none => .ok resN
        | some buf' => parseLoop fuel buf' resN
    match buf.current with
    | none => .error .ioEOF   -- `b, err = buf.current()` fails only on empty input
    | some b =>
      if b = '$' then
        cont buf (result ++ ["$"])
      else if b = '.' then
        let start := buf.index
        match buf.next with
        | none => cont buf result    -- `err == io.EOF`: cleared, leave the switch
        | some (b2, buf2) =>
          if b2 = '.' then
            cont { buf2 with index := buf2.index - 1 } (result ++ [".."])
          else
            let scan := buf2.skipAny childEndPred
            let buf3 := scan.1
            if scan.2 then
              -- `io.EOF` from skipAny: cleared, stop = buf.length
              if start + 1 < buf3.data.length then
                cont buf3 (result ++ [charSub buf3.data (start + 1) buf3.data.length])
              else
                cont buf3 result
            else
              let stop := buf3.index
              let buf4 := { buf3 with index := buf3.index - 1 }
              if start + 1 < stop then
                cont buf4 (result ++ [charSub buf4.data (start + 1) stop])
              else
                cont buf4 result
      else if b = '[' then
        match buf.next with
        | none => .error .eof
        | some (b2, buf2) =>
          if b2 = quoteChar then
            let start := buf2.index + 1
            let scan := buf2.stringScan quoteChar
            if scan.2 then .error .eof
            else
              let buf3 := scan.1
              let stop := buf3.index
              match buf3.next with
              | none => .error .eof
              | some (b4, buf4) =>
                if b4 = ']' then
                  cont buf4 (result ++ [charSub buf4.data start stop])
                else .error .symbol
          else
            let start := buf2.index
            let scan := buf2.skip ']'
            let buf3 := scan.1
            if scan.2 then .error .eof
            else cont buf3 (result ++ [charSub buf3.data start buf3.index])
      else .error .symbol

/-- `ParseJSONPath` from src/jsonpath.go: tokenize a path string into the
list of command strings. -/
def ParseJSONPath (path : String) : Except AjsonError (List String) :=
  parseLoop (path.toList.length + 1) ⟨path.toList, 0⟩ []

/-- `JSONPath` from src/jsonpath.go (lines 24–32): parse the path first; only
if that succeeds consult the document (`Unmarshal` is abstracted as the
already-computed `unmarshalResult` of the external document parser); then
fold the commands over the empty working result.  `fuel` bounds the slice
loops; `none` means the evaluation is still running. -/
def JSONPath (fuel : Nat) (unmarshalResult : Except AjsonError Node) (path : String) :
    Option (Except AjsonError (List Node)) :=
  match ParseJSONPath path with
  | .error e => some (.error e)
  | .ok commands =>
    match unmarshalResult with
    | .error e => some (.error e)
    | .ok root => runCommands fuel root 0 [] commands

/-! ## Concrete documents used by the spec's examples -/

/-- `{"a":[10,20,30,40,50]}` (spec §8, slices). -/
def doc5 : Node := .obj [("a", .arr [.num 10, .num 20, .num 30, .num 40, .num 50])]

/-- `{"a":{"x":1,"y":2,"z":3}}` (spec §8, unions). -/
def docXYZ : Node := .obj [("a", .obj [("x", .num 1), ("y", .num 2), ("z", .num 3)])]

/-- `{"a":{"b":{"price":5},"c":[{"price":7}]}}` (spec §8, recursive descent). -/
def docPrice : Node :=
  .obj [("a", .obj [("b", .obj [("price", .num 5)]),
                    ("c", .arr [.obj [("price", .num 7)]])])]

/-- `{"a":{"b":1}}` — separates `$..*` from `$.*`. -/
def docAB : Node := .obj [("a", .obj [("b", .num 1)])]

/-- `[10,20]` — the array on which a `step = 0` slice loops forever. -/
def arrStep0 : Node := .arr [.num 10, .num 20]

/-- `{"a":[10,20]}`. -/
def docStep0 : Node := .obj [("a", arrStep0)]

/-- A node with two container children that each have a container child:
`{"a":{"x":{}},"b":{"y":{}}}`.  Distinguishes the source's traversal order
from an interleaved pre-order. -/
def nodeC1 : Node := .obj [("a", .obj [("x", .obj [])]), ("b", .obj [("y", .obj [])])]

/-! ## Fuel monotonicity: a result reached with some fuel is the result -/

theorem sliceIter_mono {node : Node} {toI stepI : Int} :
    ∀ {f1 f2 : Nat} {i : Int} {acc r : List Node}, f1 ≤ f2 →
      sliceIter node toI stepI f1 i acc = some r →
      sliceIter node toI stepI f2 i acc = some r := by
  intro f1
  induction f1 with
  | zero => intro f2 i acc r _ h; simp [sliceIter] at h
  | succ f1 ih =>
    intro f2 i acc r hle h
    cases f2 with
    | zero => omega
    | succ f2 =>
      simp only [sliceIter] at h ⊢
      by_cases hi : i < toI
      · rw [if_pos hi] at h ⊢
        cases hc : Node.childByKey node (toString i) with
        | some v => rw [hc] at h; exact ih (by omega) h
        | none => rw [hc] at h; exact h
      · rw [if_neg hi] at h ⊢; exact h

theorem sliceAll_mono {fromI toI stepI : Int} :
    ∀ {l : List Node} {f1 f2 : Nat} {r : List Node}, f1 ≤ f2 →
      sliceAll f1 fromI toI stepI l = some r →
      sliceAll f2 fromI toI stepI l = some r := by
  intro l
  induction l with
  | nil => intro f1 f2 r _ h; simpa [sliceAll] using h
  | cons e rest ih =>
    intro f1 f2 r hle h
    simp only [sliceAll] at h ⊢
    by_cases ha : e.IsArray = true
    · rw [if_pos ha] at h ⊢
      cases hi : sliceIter e toI stepI f1 fromI [] with
      | none => rw [hi] at h; cases h
      | some found =>
        rw [hi] at h
        rw [sliceIter_mono hle hi]
        cases ht : sliceAll f1 fromI toI stepI rest with
        | none => rw [ht] at h; cases h
        | some tail => rw [ht] at h; rw [ih hle ht]; exact h
    · rw [if_neg ha] at h ⊢; exact ih hle h

theorem applyCmd_mono {root : Node} {idx : Nat} {result : List Node} {cmd : String}
    {f1 f2 : Nat} {r : Except AjsonError (List Node)} (hle : f1 ≤ f2)
    (h : applyCmd f1 root idx result cmd = some r) :
    applyCmd f2 root idx result cmd = some r := by
  unfold applyCmd at h ⊢
  split_ifs at h ⊢ <;> try exact h
  cases hp : parseSliceRaw cmd with
  | error e => rw [hp] at h; exact h
  | ok trip =>
    obtain ⟨fromI, toI, stepI⟩ := trip
    rw [hp] at h
    have hh : (match sliceAll f1 fromI toI stepI result with
               | none => (none : Option (Except AjsonError (List Node)))
               | some temp => some (Except.ok temp)) = some r := h
    show (match sliceAll f2 fromI toI stepI result with
          | none => (none : Option (Except AjsonError (List Node)))
          | some temp => some (Except.ok temp)) = some r
    cases hs : sliceAll f1 fromI toI stepI result with
    | none => rw [hs] at hh; cases hh
    | some temp =>
      rw [hs] at hh
      rw [sliceAll_mono hle hs]
      exact hh

theorem runCommands_mono {root : Node} :
    ∀ {cmds : List String} {idx : Nat} {result : List Node} {f1 f2 : Nat}
      {r : Except AjsonError (List Node)}, f1 ≤ f2 →
      runCommands f1 root idx result cmds = some r →
      runCommands f2 root idx result cmds = some r := by
  intro cmds
  induction cmds with
  | nil => intro idx result f1 f2 r _ h; simpa [runCommands] using h
  | cons cmd rest ih =>
    intro idx result f1 f2 r hle h
    simp only [runCommands] at h ⊢
    cases ha : applyCmd f1 root idx result cmd with
    | none => rw [ha] at h; cases h
    | some res =>
      rw [ha] at h
      rw [applyCmd_mono hle ha]
      cases res with
      | error e => exact h
      | ok result' => exact ih hle h

theorem JSONPath_mono {u : Except AjsonError Node} {path : String} {f1 f2 : Nat}
    {r : Except AjsonError (List Node)} (hle : f1 ≤ f2)
    (h : JSONPath f1 u path = some r) : JSONPath f2 u path = some r := by
  unfold JSONPath at h ⊢
  cases hp : ParseJSONPath path with
  | error e => rw [hp] at h; exact h
  | ok commands =>
    rw [hp] at h
    cases u with
    | error e => exact h
    | ok root => exact runCommands_mono hle h

/-! ## Single steps of the evaluation fold -/

theorem runCommands_cons_ok {fuel : Nat} {root : Node} {idx : Nat}
    {result result' : List Node} {cmd : String} {rest : List String}
    (h : applyCmd fuel root idx result cmd = some (.ok result')) :
    runCommands fuel root idx result (cmd :: rest) =
      runCommands fuel root (idx + 1) result' rest := by
  simp only [runCommands]; rw [h]

theorem runCommands_cons_error {fuel : Nat} {root : Node} {idx : Nat}
    {result : List Node} {cmd : String} {rest : List String} {e : AjsonError}
    (h : applyCmd fuel root idx result cmd = some (.error e)) :
    runCommands fuel root idx result (cmd :: rest) = some (.error e) := by
  simp only [runCommands]; rw [h]

theorem runCommands_cons_none {fuel : Nat} {root : Node} {idx : Nat}
    {result : List Node} {cmd : String} {rest : List String}
    (h : applyCmd fuel root idx result cmd = none) :
    runCommands fuel root idx result (cmd :: rest) = none := by
  simp only [runCommands]; rw [h]

/-! ## Divergence of the slice loop at `step = 0` -/

/-- With `from = 0`, `to = 2`, `step = 0` on `[10,20]`, every iteration finds
index 0 again: the loop state never changes, so no amount of fuel finishes. -/
theorem sliceIter_step0 : ∀ (fuel : Nat) (acc : List Node),
    sliceIter arrStep0 2 0 fuel 0 acc = none := by
  intro fuel
  induction fuel with
  | zero => intro acc; rfl
  | succ fuel ih =>
    intro acc
    rw [show sliceIter arrStep0 2 0 (fuel + 1) 0 acc
        = sliceIter arrStep0 2 0 fuel (wrap64 (0 + 0)) (acc ++ [.num 10]) from rfl]
    rw [show wrap64 (0 + 0) = (0 : Int) by decide]
    exact ih _

theorem sliceAll_step0 (fuel : Nat) : sliceAll fuel 0 2 0 [arrStep0] = none := by
  rw [show sliceAll fuel 0 2 0 [arrStep0]
      = (match sliceIter arrStep0 2 0 fuel 0 [] with
         | none => (none : Option (List Node))
         | some found => some (found ++ [])) from rfl,
    sliceIter_step0 fuel []]

theorem applyCmd_step0 (fuel : Nat) (root : Node) (idx : Nat) :
    applyCmd fuel root idx [arrStep0] "0:2:0" = none := by
  rw [show applyCmd fuel root idx [arrStep0] "0:2:0"
      = (match sliceAll fuel 0 2 0 [arrStep0] with
         | none => none
         | some temp => some (Except.ok temp)) from rfl]
  rw [sliceAll_step0 fuel]

/-! ## Helper lemmas about command shapes and slice validation -/

theorem splitCharList_ne_nil (sep : Char) : ∀ l : List Char, splitCharList sep l ≠ [] := by
  intro l
  cases l with
  | nil => simp [splitCharList]
  | cons c rest =>
    simp only [splitCharList]
    by_cases hc : c = sep
    · rw [if_pos hc]; simp
    · rw [if_neg hc]
      cases hsp : splitCharList sep rest with
      | nil => simp
      | cons hh tt => simp

theorem splitCharList_length_ge_two {sep : Char} :
    ∀ {l : List Char}, l.contains sep = true → 2 ≤ (splitCharList sep l).length := by
  intro l
  induction l with
  | nil => intro h; simp at h
  | cons c rest ih =>
    intro h
    simp only [splitCharList]
    by_cases hc : c = sep
    · rw [if_pos hc]
      have h1 : 0 < (splitCharList sep rest).length :=
        List.length_pos.mpr (splitCharList_ne_nil sep rest)
      simp only [List.length_cons]
      omega
    · rw [if_neg hc]
      have hck : rest.contains sep = true := by
        simp only [List.contains_cons, Bool.or_eq_true, beq_iff_eq] at h
        rcases h with h | h
        · exact absurd h.symm hc
        · exact h
      have h2 := ih hck
      cases hsp : splitCharList sep rest with
      | nil => exact absurd hsp (splitCharList_ne_nil sep rest)
      | cons hh tt =>
        rw [hsp] at h2
        simp only [List.length_cons] at h2 ⊢
        omega

theorem goSplit_two_le {cmd : String} (h : goContains cmd ':' = true) :
    2 ≤ (goSplit cmd ':').length := by
  unfold goContains at h
  unfold goSplit
  rw [List.length_map]
  exact splitCharList_length_ge_two h

/-- Commands containing `:` are none of the literal commands dispatched
earlier in the switch. -/
theorem goContains_colon_ne {cmd : String} (h : goContains cmd ':' = true) :
    cmd ≠ "$" ∧ cmd ≠ ".." ∧ cmd ≠ "*" := by
  refine ⟨?_, ?_, ?_⟩ <;> intro he <;> rw [he] at h <;> exact absurd h (by decide)

/-- Every error produced by the slice-field validation is `errorRequest()`. -/
theorem parseSliceFields_request :
    ∀ {k0 k1 : String} {rest : List String} {e : AjsonError},
      parseSliceFields k0 k1 rest = .error e → e = .request := by
  intro k0 k1 rest e h
  unfold parseSliceFields at h
  repeat' split at h
  all_goals
    first
      | exact (Except.error.inj h).symm
      | exact Except.noConfusion h

theorem parseSliceRaw_request {cmd : String} {e : AjsonError}
    (h : parseSliceRaw cmd = .error e) : e = .request := by
  unfold parseSliceRaw at h
  repeat' split at h
  all_goals
    first
      | exact (Except.error.inj h).symm
      | exact parseSliceFields_request h

/-- A slice command with more than three fields fails validation. -/
theorem parseSliceRaw_too_many {cmd : String} (h4 : 3 < (goSplit cmd ':').length) :
    parseSliceRaw cmd = .error .request := by
  unfold parseSliceRaw
  cases hsp : goSplit cmd ':' with
  | nil => rfl
  | cons k0 t =>
    cases t with
    | nil => rfl
    | cons k1 rest =>
      rw [hsp] at h4
      simp only [List.length_cons] at h4
      show (if rest.length > 1 then Except.error AjsonError.request
            else parseSliceFields k0 k1 rest) = Except.error AjsonError.request
      rw [if_pos (by omega)]

/-- A present, non-empty slice field that fails `Atoi` fails validation. -/
theorem parseSliceFields_bad {k0 k1 : String} {rest : List String} {k : String}
    (hrest : rest.length ≤ 1) (hk : k ∈ k0 :: k1 :: rest) (hne : k ≠ "")
    (hbad : goAtoi k = none) :
    parseSliceFields k0 k1 rest = .error .request := by
  unfold parseSliceFields
  rcases List.mem_cons.mp hk with rfl | hk1
  · rw [if_neg hne, hbad]
  · rcases List.mem_cons.mp hk1 with rfl | hk2
    · cases hf : (if k0 = "" then some 0 else goAtoi k0) with
      | none => rfl
      | some fromI => rw [if_neg hne, hbad]
    · have hrk : rest = [k] := by
        cases rest with
        | nil => simp at hk2
        | cons a t =>
          cases t with
          | nil => simp at hk2; rw [hk2]
          | cons b t2 => simp at hrest
      subst hrk
      cases hf : (if k0 = "" then some 0 else goAtoi k0) with
      | none => rfl
      | some fromI =>
        cases hg : (if k1 = "" then some maxInt64 else goAtoi k1) with
        | none => rfl
        | some toI =>
          show (if k = "" then Except.ok (fromI, toI, (1 : Int))
                else
                  match goAtoi k with
                  | none => Except.error AjsonError.request
                  | some stepI => Except.ok (fromI, toI, stepI))
              = Except.error AjsonError.request
          rw [if_neg hne, hbad]

/-- Reaching the slice branch of the dispatch: a command containing `:` whose
validation fails makes the whole command fail with that error. -/
theorem applyCmd_slice_error {fuel : Nat} {root : Node} {idx : Nat}
    {result : List Node} {cmd : String} {e : AjsonError}
    (hc : goContains cmd ':' = true) (hp : parseSliceRaw cmd = .error e) :
    applyCmd fuel root idx result cmd = some (.error e) := by
  obtain ⟨h1, h2, h3⟩ := goContains_colon_ne hc
  unfold applyCmd
  rw [if_neg h1, if_neg h2, if_neg h3, if_pos hc, hp]

theorem flatMapConstNil {α β : Type} (l : List α) :
    l.flatMap (fun _ => ([] : List β)) = [] := by
  induction l <;> simp_all

/-- Every command other than `$` at position 0 maps the empty working result
to the empty result, except that slice validation can still fail. -/
theorem applyCmd_empty (fuel : Nat) (root : Node) (idx : Nat) (cmd : String)
    (h : idx ≠ 0 ∨ cmd ≠ "$") :
    applyCmd fuel root idx [] cmd = some (.ok [])
  ∨ applyCmd fuel root idx [] cmd = some (.error .request) := by
  by_cases h1 : cmd = "$"
  · left
    have hidx : idx ≠ 0 := by
      rcases h with h | h
      · exact h
      · exact absurd h1 h
    unfold applyCmd
    rw [if_pos h1, if_neg hidx]
  · by_cases h4 : goContains cmd ':' = true
    · obtain ⟨_, h2, h3⟩ := goContains_colon_ne h4
      unfold applyCmd
      rw [if_neg h1, if_neg h2, if_neg h3, if_pos h4]
      cases hp : parseSliceRaw cmd with
      | error e =>
        right
        rw [parseSliceRaw_request hp]
      | ok trip =>
        obtain ⟨fromI, toI, stepI⟩ := trip
        left
        rfl
    · by_cases h2 : cmd = ".."
      · left
        unfold applyCmd
        rw [if_neg h1, if_pos h2]
        simp
      · by_cases h3 : cmd = "*"
        · left
          unfold applyCmd
          rw [if_neg h1, if_neg h2, if_pos h3]
          simp
        · left
          unfold applyCmd
          rw [if_neg h1, if_neg h2, if_neg h3, if_neg h4]
          by_cases h5 : isFilterCmd cmd = true
          · rw [if_pos h5]
          · rw [if_neg h5]
            rw [show ((goSplit cmd ',').flatMap (fun key =>
                  ([] : List Node).filterMap (fun e =>
                    if e.isContainer then e.childByKey key else none)))
                = (goSplit cmd ',').flatMap (fun _ => ([] : List Node)) from rfl]
            rw [flatMapConstNil]

theorem runCommands_empty :
    ∀ (cmds : List String) (fuel : Nat) (root : Node) (idx : Nat), 1 ≤ idx →
      runCommands fuel root idx [] cmds = some (.ok [])
    ∨ runCommands fuel root idx [] cmds = some (.error .request) := by
  intro cmds
  induction cmds with
  | nil => intro fuel root idx _; left; rfl
  | cons cmd rest ih =>
    intro fuel root idx hidx
    rcases applyCmd_empty fuel root idx cmd (Or.inl (by omega)) with h | h
    · rw [runCommands_cons_ok h]
      exact ih fuel root (idx + 1) (by omega)
    · right
      exact runCommands_cons_error h

/-! ## The claims -/

/-- C1 (corrected): the descendant-container list of `recursiveChildren` is
the node's direct container children in natural order, followed by — for each
of those children in order — that child's own full descendant-container list
(so all direct container children precede every grandchild); leaf
(non-container) children never appear in the list.  The spec's `$..price`
example still returns `[5,7]`. -/
theorem recursiveChildren_order :
    (∀ n : Node, recursiveChildren n =
       containerChildren n ++ (containerChildren n).flatMap recursiveChildren)
  ∧ (∀ n x : Node, x ∈ recursiveChildren n → x.isContainer = true)
  ∧ (∀ fuel : Nat,
       JSONPath fuel (.ok docPrice) "$..price" = some (.ok [.num 5, .num 7])) :=
  ⟨recursiveChildren_eq, fun _ _ h => rc_containers h, fun _ => rfl⟩

/-- Witness for `recursiveChildren_order`: the first element of
`recursiveChildren nodeC1` is a container. -/
theorem recursiveChildren_order_witness :
    (Node.obj [("x", Node.obj [])]).isContainer = true :=
  recursiveChildren_order.2.1 nodeC1 (Node.obj [("x", Node.obj [])]) (List.Mem.head _)

/-- C1 counterexample: on `{"a":{"x":{}},"b":{"y":{}}}` the source's list
puts both direct children before any grandchild (`[a, b, x, y]`), whereas
the claim's "each direct container child immediately followed by its own
descendant list" (pre-order) would give `[a, x, b, y]`. -/
theorem recursiveChildren_not_preorder :
    recursiveChildren nodeC1 =
      [.obj [("x", .obj [])], .obj [("y", .obj [])], .obj [], .obj []]
  ∧ claimPreorder nodeC1 =
      [.obj [("x", .obj [])], .obj [], .obj [("y", .obj [])], .obj []]
  ∧ recursiveChildren nodeC1 ≠ claimPreorder nodeC1 := by
  refine ⟨rfl, rfl, ?_⟩
  rw [show recursiveChildren nodeC1 =
      [.obj [("x", .obj [])], .obj [("y", .obj [])], .obj [], .obj []] from rfl,
    show claimPreorder nodeC1 =
      [.obj [("x", .obj [])], .obj [], .obj [("y", .obj [])], .obj []] from rfl]
  simp [Node.obj, Fields.ofList]

/-- C2 (corrected): the tokenizer error of the unterminated bracket `"$.a["`
is reported for every document-parse outcome `u` — the document is never
consulted.  But `"$.a[1:2:3:4]"` tokenizes successfully: its four-field
slice error is an evaluation-time `errorRequest()`, raised only after the
document has been parsed successfully. -/
theorem parse_error_before_document :
    (∀ (fuel : Nat) (u : Except AjsonError Node),
       JSONPath fuel u "$.a[" = some (.error .eof))
  ∧ (∀ (fuel : Nat) (root : Node),
       JSONPath fuel (.ok root) "$.a[1:2:3:4]" = some (.error .request)) :=
  ⟨fun _ _ => rfl, fun _ _ => rfl⟩

/-- C2 counterexample: with a failing document parse, `"$.a[1:2:3:4]"`
returns the document error, not a path error — so document parsing is
invoked for that path, contradicting the claim. -/
theorem four_field_slice_reads_document :
    JSONPath 0 (.error .document) "$.a[1:2:3:4]" = some (.error .document)
  ∧ JSONPath 0 (.error .document) "$.a[1:2:3:4]" ≠ some (.error .request) := by
  refine ⟨rfl, fun h => ?_⟩
  rw [show JSONPath 0 (.error .document) "$.a[1:2:3:4]"
      = some (.error .document) from rfl] at h
  simp at h

/-- C3 (code bug): on the document `{"a":[10,20]}` the path `"$.a[0:2:0]"`
(step 0) never terminates: index 0 is found again on every iteration, so no
amount of fuel completes the fold — contradicting the claim (and spec §5)
that every query runs to completion. -/
theorem slice_step0_diverges :
    ∀ fuel : Nat, JSONPath fuel (.ok docStep0) "$.a[0:2:0]" = none := by
  intro fuel
  show runCommands fuel docStep0 0 [] ["$", "a", "0:2:0"] = none
  have h1 : applyCmd fuel docStep0 0 [] "$" = some (.ok [docStep0]) := rfl
  have h2 : applyCmd fuel docStep0 1 [docStep0] "a" = some (.ok [arrStep0]) := rfl
  rw [runCommands_cons_ok h1, runCommands_cons_ok h2,
    runCommands_cons_none (applyCmd_step0 fuel docStep0 2)]

/-- C4 (confirmed): slice defaults — empty `from` behaves as `0`, empty `to`
as the MaxInt64 unbounded sentinel, missing or empty `step` as `1`;
iteration stops at the bound `to` (exclusive) and at the first missing
index; non-array nodes contribute nothing; and the three examples on
`{"a":[10,20,30,40,50]}` evaluate as the spec states (for every fuel beyond
what the loops consume). -/
theorem slice_semantics :
    (∀ (k1 : String) (rest : List String),
       parseSliceFields "" k1 rest = parseSliceFields "0" k1 rest)
  ∧ (∀ (k0 : String) (rest : List String),
       parseSliceFields k0 "" rest = parseSliceFields k0 "9223372036854775807" rest)
  ∧ (∀ k0 k1 : String,
       parseSliceFields k0 k1 [] = parseSliceFields k0 k1 ["1"]
     ∧ parseSliceFields k0 k1 [""] = parseSliceFields k0 k1 ["1"])
  ∧ (∀ (fuel : Nat) (fromI toI stepI : Int) (e : Node) (rest : List Node),
       e.IsArray = false →
       sliceAll fuel fromI toI stepI (e :: rest) = sliceAll fuel fromI toI stepI rest)
  ∧ (∀ (fuel : Nat) (node : Node) (toI stepI i : Int) (acc : List Node),
       toI ≤ i → sliceIter node toI stepI (fuel + 1) i acc = some acc)
  ∧ (∀ (fuel : Nat) (node : Node) (toI stepI i : Int) (acc : List Node),
       i < toI → node.childByKey (toString i) = none →
       sliceIter node toI stepI (fuel + 1) i acc = some acc)
  ∧ (∀ fuel : Nat,
       JSONPath (fuel + 10) (.ok doc5) "$.a[1:3]" = some (.ok [.num 20, .num 30])
     ∧ JSONPath (fuel + 10) (.ok doc5) "$.a[1:]"
         = some (.ok [.num 20, .num 30, .num 40, .num 50])
     ∧ JSONPath (fuel + 10) (.ok doc5) "$.a[:2]" = some (.ok [.num 10, .num 20])) := by
  refine ⟨fun _ _ => rfl, fun _ _ => rfl, fun _ _ => ⟨rfl, rfl⟩, ?_, ?_, ?_, ?_⟩
  · intro fuel fromI toI stepI e rest h
    simp [sliceAll, h]
  · intro fuel node toI stepI i acc h
    simp only [sliceIter]
    rw [if_neg (not_lt.mpr h)]
  · intro fuel node toI stepI i acc hlt hnone
    simp only [sliceIter]
    rw [if_pos hlt, hnone]
  · intro fuel
    have e1 : JSONPath 10 (.ok doc5) "$.a[1:3]" = some (.ok [.num 20, .num 30]) := rfl
    have e2 : JSONPath 10 (.ok doc5) "$.a[1:]"
        = some (.ok [.num 20, .num 30, .num 40, .num 50]) := rfl
    have e3 : JSONPath 10 (.ok doc5) "$.a[:2]" = some (.ok [.num 10, .num 20]) := rfl
    exact ⟨JSONPath_mono (by omega) e1, JSONPath_mono (by omega) e2,
      JSONPath_mono (by omega) e3⟩

/-- Witness for `slice_semantics`: the hypothesis-bearing parts at concrete
inputs — a non-array node is skipped, iteration stops at the exclusive upper
bound, and iteration stops at the first missing index. -/
theorem slice_semantics_witness :
    sliceAll 1 0 3 1 [Node.null] = sliceAll 1 0 3 1 []
  ∧ sliceIter (Node.arr [.num 10]) 1 1 1 1 [] = some []
  ∧ sliceIter (Node.arr [.num 10]) 5 1 1 3 [] = some [] :=
  ⟨slice_semantics.2.2.2.1 1 0 3 1 Node.null [] rfl,
   slice_semantics.2.2.2.2.1 0 (Node.arr [.num 10]) 1 1 1 [] (by decide),
   slice_semantics.2.2.2.2.2.1 0 (Node.arr [.num 10]) 5 1 3 [] (by decide) rfl⟩

/-- C5 (confirmed): recursive descent **appends** the computed descendant
lists to the working result, preserving the nodes already present, while the
wildcard **replaces** the result with the concatenated direct children; on
`{"a":{"b":1}}` the paths `$..*` and `$.*` give different results. -/
theorem descent_appends_wildcard_replaces :
    (∀ (fuel : Nat) (root : Node) (idx : Nat) (result : List Node),
       applyCmd fuel root idx result ".." =
         some (.ok (result ++ result.flatMap recursiveChildren)))
  ∧ (∀ (fuel : Nat) (root : Node) (idx : Nat) (result : List Node),
       applyCmd fuel root idx result "*" =
         some (.ok (result.flatMap Node.inheritors)))
  ∧ (∃ r1 r2 : List Node,
       JSONPath 0 (.ok docAB) "$..*" = some (.ok r1)
     ∧ JSONPath 0 (.ok docAB) "$.*" = some (.ok r2)
     ∧ r1 ≠ r2) := by
  refine ⟨fun _ _ _ _ => rfl, fun _ _ _ _ => rfl,
    ⟨[.obj [("b", .num 1)], .num 1], [.obj [("b", .num 1)]], rfl, rfl, ?_⟩⟩
  simp

/-- C6 (confirmed): the root command `$` at position 0 appends the root to
the (empty) working result — evaluating the path `"$"` returns exactly
`[root]` for every document — and a `$` at any later position leaves the
working result unchanged. -/
theorem root_command :
    (∀ (fuel : Nat) (root : Node), JSONPath fuel (.ok root) "$" = some (.ok [root]))
  ∧ (∀ (fuel : Nat) (root : Node) (result : List Node),
       applyCmd fuel root 0 result "$" = some (.ok (result ++ [root])))
  ∧ (∀ (fuel : Nat) (root : Node) (idx : Nat) (result : List Node), idx ≠ 0 →
       applyCmd fuel root idx result "$" = some (.ok result)) := by
  refine ⟨fun _ _ => rfl, fun _ _ _ => rfl, ?_⟩
  intro fuel root idx result hidx
  show some (Except.ok (if idx = 0 then result ++ [root] else result))
      = (some (Except.ok result) : Option (Except AjsonError (List Node)))
  rw [if_neg hidx]

/-- Witness for `root_command`: a later `$` is a no-op on a concrete state. -/
theorem root_command_witness :
    applyCmd 0 Node.null 1 [Node.null] "$" = some (.ok [Node.null]) :=
  root_command.2.2 0 Node.null 1 [Node.null] (by decide)

/-- C7 (corrected): the union dispatch splits the command on commas and
replaces the working result with, for each key in written order, the
children found under that exact key among the current nodes in order
(containers only; absent keys contribute nothing).  But the claim's quoted
example `"$.a['x','y']"` never reaches evaluation: the tokenizer requires
`]` right after a quoted key, so it is a parse error; the unquoted
`"$.a[x,y]"` and `"$.a[x,w]"` give the claimed `[1,2]` and `[1]`. -/
theorem union_semantics :
    (∀ (fuel : Nat) (root : Node) (idx : Nat) (result : List Node) (cmd : String),
       cmd ≠ "$" → cmd ≠ ".." → cmd ≠ "*" → goContains cmd ':' = false →
       isFilterCmd cmd = false →
       applyCmd fuel root idx result cmd =
         some (.ok ((goSplit cmd ',').flatMap (fun key =>
           result.filterMap (fun e =>
             if e.isContainer then e.childByKey key else none)))))
  ∧ (∀ fuel : Nat,
       JSONPath fuel (.ok docXYZ) "$.a[x,y]" = some (.ok [.num 1, .num 2]))
  ∧ (∀ fuel : Nat, JSONPath fuel (.ok docXYZ) "$.a[x,w]" = some (.ok [.num 1]))
  ∧ ParseJSONPath "$.a['x','y']" = .error .symbol := by
  refine ⟨?_, fun _ => rfl, fun _ => rfl, rfl⟩
  intro fuel root idx result cmd h1 h2 h3 h4 h5
  unfold applyCmd
  rw [if_neg h1, if_neg h2, if_neg h3,
    if_neg (fun hx => by rw [h4] at hx; exact Bool.false_ne_true hx),
    if_neg (fun hx => by rw [h5] at hx; exact Bool.false_ne_true hx)]

/-- Witness for `union_semantics`: the union branch applied at a concrete
command and state. -/
theorem union_semantics_witness :
    applyCmd 0 Node.null 0 [] "x,y" =
      some (.ok ((goSplit "x,y" ',').flatMap (fun key =>
        ([] : List Node).filterMap (fun e =>
          if e.isContainer then e.childByKey key else none)))) :=
  union_semantics.1 0 Node.null 0 [] "x,y" (by decide) (by decide) (by decide)
    (by decide) (by decide)

/-- C7 counterexample: the claim's own path `"$.a['x','y']"` is rejected by
the tokenizer (unexpected symbol: the comma after the quoted key), so it
cannot yield `[1,2]`. -/
theorem quoted_union_is_parse_error :
    JSONPath 0 (.ok docXYZ) "$.a['x','y']" = some (.error .symbol)
  ∧ JSONPath 0 (.ok docXYZ) "$.a['x','y']" ≠ some (.ok [Node.num 1, Node.num 2]) := by
  refine ⟨rfl, fun h => ?_⟩
  rw [show JSONPath 0 (.ok docXYZ) "$.a['x','y']" = some (.error .symbol) from rfl] at h
  simp at h

/-- C8 (confirmed): the three tokenizations of the claim. -/
theorem tokenize_examples :
    ParseJSONPath "$..a" = .ok ["$", "..", "a"]
  ∧ ParseJSONPath "$['a']['b']" = .ok ["$", "a", "b"]
  ∧ ParseJSONPath "$.a.b" = .ok ["$", "a", "b"] :=
  ⟨rfl, rfl, rfl⟩

/-- C9 (confirmed): a slice command with more than three colon-separated
fields, or with any present non-empty field that fails integer parsing,
makes the command evaluate to `errorRequest()`, and any command error aborts
the fold immediately with that error (the Go function returns `nil, err`:
no partial result). -/
theorem slice_validation_aborts :
    (∀ (fuel : Nat) (root : Node) (idx : Nat) (result : List Node) (cmd : String),
       goContains cmd ':' = true → 3 < (goSplit cmd ':').length →
       applyCmd fuel root idx result cmd = some (.error .request))
  ∧ (∀ (fuel : Nat) (root : Node) (idx : Nat) (result : List Node) (cmd k : String),
       goContains cmd ':' = true → (goSplit cmd ':').length ≤ 3 →
       k ∈ goSplit cmd ':' → k ≠ "" → goAtoi k = none →
       applyCmd fuel root idx result cmd = some (.error .request))
  ∧ (∀ (fuel : Nat) (root : Node) (idx : Nat) (result : List Node) (cmd : String)
       (rest : List String) (e : AjsonError),
       applyCmd fuel root idx result cmd = some (.error e) →
       runCommands fuel root idx result (cmd :: rest) = some (.error e)) := by
  refine ⟨?_, ?_, fun _ _ _ _ _ _ _ h => runCommands_cons_error h⟩
  · intro fuel root idx result cmd hc hlen
    exact applyCmd_slice_error hc (parseSliceRaw_too_many hlen)
  · intro fuel root idx result cmd k hc hlen hk hne hbad
    have h2 := goSplit_two_le hc
    rcases hsp : goSplit cmd ':' with _ | ⟨k0, _ | ⟨k1, rest⟩⟩
    · rw [hsp] at h2; simp at h2
    · rw [hsp] at h2; simp at h2
    · rw [hsp] at hk hlen
      have hrest : rest.length ≤ 1 := by
        simp only [List.length_cons] at hlen; omega
      refine applyCmd_slice_error hc ?_
      unfold parseSliceRaw
      rw [hsp]
      show (if rest.length > 1 then Except.error AjsonError.request
            else parseSliceFields k0 k1 rest) = Except.error AjsonError.request
      rw [if_neg (by omega)]
      exact parseSliceFields_bad hrest hk hne hbad

/-- Witness for `slice_validation_aborts`: the four-field slice
`"1:2:3:4"`, the non-integer slice `"x:2"`, and the abort of the fold. -/
theorem slice_validation_aborts_witness :
    applyCmd 0 Node.null 0 [] "1:2:3:4" = some (.error .request)
  ∧ applyCmd 0 Node.null 0 [] "x:2" = some (.error .request)
  ∧ runCommands 0 Node.null 0 [] ["1:2:3:4", "a"] = some (.error .request) :=
  ⟨slice_validation_aborts.1 0 Node.null 0 [] "1:2:3:4" (by decide) (by decide),
   slice_validation_aborts.2.1 0 Node.null 0 [] "x:2" "x" (by decide) (by decide)
     (by decide) (by decide) (by decide),
   slice_validation_aborts.2.2 0 Node.null 0 [] "1:2:3:4" ["a"] .request rfl⟩

/-- C10 (corrected): apart from `$` at position 0, every command maps the
empty working result to the empty result **or fails slice validation with a
request error** — so a successfully parsed path whose command sequence does
not start with `$` returns the empty result or a request error, never a
non-empty result. -/
theorem empty_result_invariant :
    (∀ (fuel : Nat) (root : Node) (idx : Nat) (cmd : String), idx ≠ 0 ∨ cmd ≠ "$" →
       applyCmd fuel root idx [] cmd = some (.ok [])
     ∨ applyCmd fuel root idx [] cmd = some (.error .request))
  ∧ (∀ (fuel : Nat) (root : Node) (cmds : List String),
       (∀ c, cmds.head? = some c → c ≠ "$") →
       runCommands fuel root 0 [] cmds = some (.ok [])
     ∨ runCommands fuel root 0 [] cmds = some (.error .request)) := by
  refine ⟨applyCmd_empty, ?_⟩
  intro fuel root cmds hhead
  cases cmds with
  | nil => left; rfl
  | cons cmd rest =>
    have hcmd : cmd ≠ "$" := hhead cmd rfl
    rcases applyCmd_empty fuel root 0 cmd (Or.inr hcmd) with h | h
    · rw [runCommands_cons_ok h]
      exact runCommands_empty rest fuel root 1 le_rfl
    · right
      exact runCommands_cons_error h

/-- Witness for `empty_result_invariant`: a later `..` keeps the empty
result; a non-rooted command sequence with a bad slice hits the error arm. -/
theorem empty_result_invariant_witness :
    (applyCmd 0 Node.null 1 [] ".." = some (.ok [])
      ∨ applyCmd 0 Node.null 1 [] ".." = some (.error .request))
  ∧ (runCommands 0 Node.null 0 [] ["a", "1:2:3:4"] = some (.ok [])
      ∨ runCommands 0 Node.null 0 [] ["a", "1:2:3:4"] = some (.error .request)) :=
  ⟨empty_result_invariant.1 0 Node.null 1 ".." (Or.inl (by decide)),
   empty_result_invariant.2 0 Node.null ["a", "1:2:3:4"]
     (fun c hc => by
       rw [show (["a", "1:2:3:4"] : List String).head? = some "a" from rfl] at hc
       rw [← Option.some.inj hc]
       decide)⟩

/-- C10 counterexample: `".a[1:2:3:4]"` parses successfully and does not
start with `$`, yet `JSONPath` returns a request error, not the empty
result. -/
theorem non_rooted_path_can_error :
    ParseJSONPath ".a[1:2:3:4]" = .ok ["a", "1:2:3:4"]
  ∧ JSONPath 0 (.ok Node.null) ".a[1:2:3:4]" = some (.error .request)
  ∧ JSONPath 0 (.ok Node.null) ".a[1:2:3:4]" ≠ some (.ok ([] : List Node)) := by
  refine ⟨rfl, rfl, fun h => ?_⟩
  rw [show JSONPath 0 (.ok Node.null) ".a[1:2:3:4]"
      = some (.error .request) from rfl] at h
  simp at h
